import Mathlib

/-!
Shallow embedding of the wave-mode-arrival detection core
(`modearrivals.py`: `find_peaks_troughs`, `find_signal_threshold`,
`get_extension_arrival`, `get_flexure_arrival`) over rational numbers,
together with proofs settling the specification claims.

Real samples are modelled as `ℚ`; numpy arrays as `List ℚ`.  A raised
Python exception (numpy `IndexError` from indexing an empty `np.where`
result, `ValueError` from `max()` of an empty sequence) is modelled as
`Except.error`; normal returns as `Except.ok`.
-/

/-- Kinds of raw Python exceptions the reference code can raise. -/
inductive Err where
  | indexError : Err
  | valueError : Err
deriving DecidableEq, Repr

instance : DecidableEq (Except Err ℤ) := fun a b =>
  match a, b with
  | .error x, .error y =>
    if h : x = y then .isTrue (by rw [h]) else .isFalse (fun hh => h (by cases hh; rfl))
  | .ok x, .ok y =>
    if h : x = y then .isTrue (by rw [h]) else .isFalse (fun hh => h (by cases hh; rfl))
  | .error _, .ok _ => .isFalse (fun hh => Except.noConfusion hh)
  | .ok _, .error _ => .isFalse (fun hh => Except.noConfusion hh)

/-- Python `np.mean` on a nonempty slice: sum divided by length. -/
def pymean (l : List ℚ) : ℚ := l.sum / (l.length : ℚ)

/-- Python builtin `max` over a nonempty sequence (callers guard emptiness). -/
def pymax (l : List ℚ) : ℚ := l.foldl max (l.headD 0)

/-- Python `int()` on a rational: truncation toward zero. -/
def pyint (q : ℚ) : ℤ := q.num / (q.den : ℤ)

/-- Index of the first element satisfying `p`, i.e. `np.where(p)[0, 0]`
(`none` models the `IndexError` on an empty `where` result). -/
def firstIdx? (p : ℚ → Bool) (l : List ℚ) : Option ℕ :=
  ((List.range l.length).filter (fun i => p (l.getD i 0))).head?

/-- Index of the last element satisfying `p`, i.e. `np.where(p)[0, -1]`. -/
def lastIdx? (p : ℚ → Bool) (l : List ℚ) : Option ℕ :=
  ((List.range l.length).filter (fun i => p (l.getD i 0))).getLast?

/-! ## `find_peaks_troughs` -/

/-- First-difference series `np.diff(vctr)`. -/
def dff (v : List ℚ) : List ℚ := List.zipWith (fun a b => b - a) v v.tail

/-- The offset diff vector `dff1`: zeros of length `len(dff)+1` with
`dff1[1:] = dff`. -/
def dff1 (v : List ℚ) : List ℚ := 0 :: dff v

/-- The appended diff vector `np.append(dff, 0)`. -/
def dffA (v : List ℚ) : List ℚ := dff v ++ [0]

/-- Elementwise product `dff*dff1` followed by `np.delete(·, 0)` and
`np.delete(·, -1)`. -/
def mlt (v : List ℚ) : List ℚ :=
  ((List.zipWith (· * ·) (dffA v) (dff1 v)).drop 1).dropLast

/-- Extremum locations: `np.where(mlt <= 0)` offset by 1. -/
def locsN (v : List ℚ) : List ℕ :=
  ((List.range (mlt v).length).filter (fun k => decide ((mlt v).getD k 0 ≤ 0))).map
    (fun k => k + 1)

/-- Extremum values `vctr[locs]`. -/
def pksL (v : List ℚ) : List ℚ := (locsN v).map (fun i => v.getD i 0)

/-- Padded location vector `locs1`: `np.ones` bracket, so the synthetic
start-boundary location is the placeholder `1`, and the end is `len(vctr)`. -/
def locs1 (v : List ℚ) : List ℚ :=
  1 :: (locsN v).map (fun n : ℕ => (n : ℚ)) ++ [(v.length : ℚ)]

/-- Padded peak-value vector `pks1`, bracketed with `vctr[0]` and `vctr[-1]`. -/
def pks1 (v : List ℚ) : List ℚ := v.headD 0 :: pksL v ++ [v.getLastD 0]

/-- Widths: `wds[jj] = locs1[jj+1] - locs1[jj-1]` for `jj = 1..M`,
after deleting the excess slot 0. -/
def wdsL (v : List ℚ) : List ℚ :=
  (List.range (locsN v).length).map
    (fun j => (locs1 v).getD (j + 2) 0 - (locs1 v).getD j 0)

/-- Prominences: `min(|pks1[jj]-pks1[jj-1]|, |pks1[jj+1]-pks1[jj]|)` for
`jj = 1..M`, after deleting the excess slot 0. -/
def prmsL (v : List ℚ) : List ℚ :=
  (List.range (locsN v).length).map
    (fun j => min |(pks1 v).getD (j + 1) 0 - (pks1 v).getD j 0|
                  |(pks1 v).getD (j + 2) 0 - (pks1 v).getD (j + 1) 0|)

/-- Output of `find_peaks_troughs`: the four parallel sequences
`pks, locs, wds, prms` (locations are numpy floats in the source, hence
`List ℚ` here as well). -/
structure Extrema where
  pks : List ℚ
  locs : List ℚ
  wds : List ℚ
  prms : List ℚ
deriving DecidableEq, Repr

/-- The function `find_peaks_troughs(vctr)` from `modearrivals.py`. -/
def find_peaks_troughs (v : List ℚ) : Extrema :=
  ⟨pksL v, (locsN v).map (fun n : ℕ => (n : ℚ)), wdsL v, prmsL v⟩

/-! ## Shared normalization -/

/-- The prominence-weighted parameter `param = np.abs(pks*prominence)`. -/
def rawParam (e : Extrema) : List ℚ :=
  List.zipWith (fun p q => |p * q|) e.pks e.prms

/-- Descending sort `np.sort(param)[::-1]`. -/
def nrmList (param : List ℚ) : List ℚ :=
  (param.insertionSort (· ≤ ·)).reverse

/-- Shared normalization: divide by the second-largest entry when the
largest/second-largest ratio exceeds 5, else by the largest.  `none`
models the `IndexError` raised by `nrm[1]` when there are fewer than two
extrema. -/
def normalizeParam (param : List ℚ) : Option (List ℚ) :=
  match nrmList param with
  | a :: b :: _ =>
    if 5 < a / b then some (param.map (· / b)) else some (param.map (· / a))
  | _ => none

/-! ## `find_signal_threshold` -/

/-- The noise floor `noiseMin = 1e-6`. -/
def noiseMin : ℚ := 1 / 1000000

/-- One-iteration-per-fuel-unit unfolding of the `while` loop of
`find_signal_threshold`.  State: window start `strt` (the window is
`vctr[strt:strt+25]`, both advanced by 20 per iteration), working
threshold `thresh` (`none` is the initial Python `[]`), the saved
`tmpthresh`, the streak flag `flag2` and streak counter `upcnt`.
Python's `if thresh:` truthiness (false for `[]` and for `0.0`) guards
the save of `tmpthresh`.  The fuel `v.length + 1` given below strictly
exceeds the iteration count, since each iteration advances `strt` by 20
and the loop stops as soon as `strt + 45 > v.length`. -/
def fstLoop : ℕ → List ℚ → ℕ → Option ℚ → ℚ → Bool → ℕ → ℚ
  | 0, _, _, thresh, _, _, _ => thresh.getD 0
  | (fuel + 1), v, strt, thresh, tmpthresh, flag2, upcnt =>
    let tmp1 := match thresh with
      | some t => if t = 0 then tmpthresh else t
      | none => tmpthresh
    let m := pymean ((v.drop strt).take 25)
    if noiseMin < m then
      let upcnt1 := upcnt + 1
      let th1 := if 1 < upcnt1 then tmp1 else m
      if strt + 45 > v.length ∨ (noiseMin < th1 ∧ 2 < upcnt1) then th1
      else fstLoop fuel v (strt + 20) (some th1) tmp1 true upcnt1
    else
      let upcnt1 := if flag2 then 0 else upcnt
      if strt + 45 > v.length ∨ (noiseMin < m ∧ 2 < upcnt1) then m
      else fstLoop fuel v (strt + 20) (some m) tmp1 false upcnt1

/-- The function `find_signal_threshold(vctr)` from `modearrivals.py`. -/
def find_signal_threshold (v : List ℚ) : ℚ :=
  fstLoop (v.length + 1) v 0 none 0 false 0

/-! ## Arrival search shared by both detectors -/

/-- The final threshold-crossing search both detectors use: first index
with `param > t` (`IndexError` when `np.where` is empty); `if not idx`
returns the sentinel `0`, otherwise `int(locs[idx])`. -/
def scanArrival (param locs : List ℚ) (t : ℚ) : Except Err ℤ :=
  match firstIdx? (fun x => decide (t < x)) param with
  | none => .error .indexError
  | some i => if i = 0 then .ok 0 else .ok (pyint (locs.getD i 0))

/-- The function `get_flexure_arrival(sgnl)` from `modearrivals.py`. -/
def get_flexure_arrival (sgnl : List ℚ) : Except Err ℤ :=
  match normalizeParam (rawParam (find_peaks_troughs sgnl)) with
  | none => .error .indexError
  | some param =>
    scanArrival param (find_peaks_troughs sgnl).locs (find_signal_threshold param)

/-! ## `get_extension_arrival` -/

/-- The `tstmean` segment-mean loop of `get_extension_arrival`: each
iteration records `(strt, np.mean(param[strt:strt+w]))` with
`w = floor(nnlocs/2)`, then sets `strt = endd + 1` (so starts advance by
`w + 1`), stopping when the updated `endd` runs past the series or the
just-recorded mean exceeds `refmax`.  Fuel `param.length + 2` strictly
exceeds the iteration count since `strt` strictly increases. -/
def tstLoop : ℕ → List ℚ → ℕ → ℚ → ℕ → List (ℕ × ℚ)
  | 0, _, _, _, _ => []
  | (fuel + 1), param, w, refmax, strt =>
    let m := pymean ((param.drop strt).take w)
    if strt + w + 1 + w > param.length ∨ refmax < m then [(strt, m)]
    else (strt, m) :: tstLoop fuel param w refmax (strt + w + 1)

/-- Branch A of `get_extension_arrival` (no segment mean exceeded
`refmaxthresh`): take the last segment with mean below `refnoisemean`
(`IndexError` when there is none), replace index 0 by 1, discard extrema
up to and including that segment's start, then run the threshold-crossing
search against `refnoisemean`. -/
def extBranchA (param locs : List ℚ) (ts : List (ℕ × ℚ)) (refnoisemean : ℚ) :
    Except Err ℤ :=
  match lastIdx? (fun m => decide (m < refnoisemean)) (ts.map Prod.snd) with
  | none => .error .indexError
  | some idxa =>
    let idx2 := if idxa = 0 then 1 else idxa
    if idx2 < ts.length then
      let cut := (ts.getD idx2 (0, 0)).1
      scanArrival (param.drop (cut + 1)) (locs.drop (cut + 1)) refnoisemean
    else .error .indexError

/-- Final pick of Branch B on the zoomed window: last index with
`param <= refnoisemean` (`IndexError` when none), then the location one
past it; a location equal to `0` falls back to `locs[-2]`, or `locs[-1]`
when `locs[-2]` is out of range. -/
def branchBPick (param3 locs3 : List ℚ) (refnoisemean : ℚ) : Except Err ℤ :=
  match lastIdx? (fun x => decide (x ≤ refnoisemean)) param3 with
  | none => .error .indexError
  | some i3 =>
    if h : i3 + 1 < locs3.length then
      let extIDX := locs3.get ⟨i3 + 1, h⟩
      if extIDX = 0 then
        if 2 ≤ locs3.length then .ok (pyint (locs3.getD (locs3.length - 2) 0))
        else .ok (pyint (locs3.getD (locs3.length - 1) 0))
      else .ok (pyint extIDX)
    else .error .indexError

/-- Branch B of `get_extension_arrival` (some segment mean exceeded
`refmaxthresh`): cut before the last below-noise segment (the source
computes `idx = int(tstmean[idx][0] - 1)` and deletes `0..idx`, i.e.
drops exactly `tstmean[idx][0]` entries), find the first entry above
`refmaxthresh`, keep everything up to it, and pick within that window. -/
def extBranchB (param locs : List ℚ) (ts : List (ℕ × ℚ))
    (refnoisemean refmaxthresh : ℚ) : Except Err ℤ :=
  match lastIdx? (fun m => decide (m < refnoisemean)) (ts.map Prod.snd) with
  | none => .error .indexError
  | some idxb =>
    let dropn := (ts.getD idxb (0, 0)).1
    let param2 := param.drop dropn
    let locs2 := locs.drop dropn
    match firstIdx? (fun x => decide (refmaxthresh < x)) param2 with
    | none => .error .indexError
    | some i2 => branchBPick (param2.take (i2 + 1)) (locs2.take (i2 + 1)) refnoisemean

/-- The function `get_extension_arrival(sgnl, noisemult, noisemin)` from
`modearrivals.py` (defaults `noisemult = 10`, `noisemin = 1e-6`).
The `ValueError` arm models Python `max()` over the empty noise slice
`param[1:nnlocs]` when `nnlocs <= 1`. -/
def get_extension_arrival (sgnl : List ℚ) (noisemult noisemin : ℚ) : Except Err ℤ :=
  let e := find_peaks_troughs sgnl
  match normalizeParam (rawParam e) with
  | none => .error .indexError
  | some param =>
    match firstIdx? (fun x => decide (x = 1)) param with
    | none => .error .indexError
    | some tmpidx =>
      let nnlim : ℚ := max ((⌊e.locs.getD tmpidx 0 / 4⌋ : ℤ) : ℚ)
                           ((⌊(sgnl.length : ℚ) / 40⌋ : ℤ) : ℚ)
      match lastIdx? (fun x => decide (x ≤ nnlim)) e.locs with
      | none => .error .indexError
      | some nnlocs =>
        let noiseSlice := (param.drop 1).take (nnlocs - 1)
        if noiseSlice.length = 0 then .error .valueError
        else
          let refnoisemean := max (pymean noiseSlice) noisemin
          let refmaxthresh := max (noisemult * refnoisemean) (pymax noiseSlice)
          let ts := tstLoop (param.length + 2) param (nnlocs / 2) refmaxthresh 0
          match ts.getLast? with
          | none => .error .indexError
          | some lastE =>
            if lastE.2 ≤ refmaxthresh then extBranchA param e.locs ts refnoisemean
            else extBranchB param e.locs ts refnoisemean refmaxthresh

/-! ## Basic structural lemmas about `find_peaks_troughs` -/

lemma length_dff (v : List ℚ) : (dff v).length = v.length - 1 := by
  simp [dff]

lemma length_mlt (v : List ℚ) : (mlt v).length = v.length - 2 := by
  simp [mlt, dffA, dff1, length_dff]
  omega

lemma locsN_mem (v : List ℚ) {x : ℕ} (hx : x ∈ locsN v) :
    1 ≤ x ∧ x ≤ v.length - 2 := by
  unfold locsN at hx
  obtain ⟨k, hk, rfl⟩ := List.mem_map.mp hx
  have hk' : k ∈ List.range (mlt v).length := (List.mem_filter.mp hk).1
  have := List.mem_range.mp hk'
  rw [length_mlt] at this
  omega

lemma locsN_pairwise (v : List ℚ) : (locsN v).Pairwise (· < ·) := by
  unfold locsN
  exact ((List.pairwise_lt_range _).filter _).map _
    (fun a b h => Nat.succ_lt_succ h)

/-- C1: on the fixture signal `[0,1,0,-1,0,1,0,-1,0]` the peak/trough finder
returns exactly `values = [1,-1,1,-1]`, `locations = [1,3,5,7]`,
`widths = [2,4,4,4]`, `prominences = [1,2,2,1]`. -/
theorem fpt_e2e_fixture :
    find_peaks_troughs [0, 1, 0, -1, 0, 1, 0, -1, 0] =
      ⟨[1, -1, 1, -1], [1, 3, 5, 7], [2, 4, 4, 4], [1, 2, 2, 1]⟩ := by
  with_unfolding_all decide

/-- C2: for any input of length at least 3, the four returned sequences have
equal length, and the locations are strictly increasing with every entry
strictly between `0` and `length - 1`. -/
theorem fpt_invariants (v : List ℚ) (h3 : 3 ≤ v.length) :
    ((find_peaks_troughs v).pks.length = (find_peaks_troughs v).locs.length ∧
     (find_peaks_troughs v).wds.length = (find_peaks_troughs v).locs.length ∧
     (find_peaks_troughs v).prms.length = (find_peaks_troughs v).locs.length) ∧
    (find_peaks_troughs v).locs.Pairwise (· < ·) ∧
    ∀ x ∈ (find_peaks_troughs v).locs, 0 < x ∧ x < (v.length : ℚ) - 1 := by
  refine ⟨⟨?_, ?_, ?_⟩, ?_, ?_⟩
  · simp [find_peaks_troughs, pksL]
  · simp [find_peaks_troughs, wdsL]
  · simp [find_peaks_troughs, prmsL]
  · show ((locsN v).map (fun n : ℕ => (n : ℚ))).Pairwise (· < ·)
    exact List.Pairwise.map (fun n : ℕ => (n : ℚ))
      (fun a b h => by show (a : ℚ) < (b : ℚ); exact_mod_cast h) (locsN_pairwise v)
  · intro x hx
    have hx' : x ∈ (locsN v).map (fun n : ℕ => (n : ℚ)) := hx
    obtain ⟨n, hn, rfl⟩ := List.mem_map.mp hx'
    obtain ⟨h1, h2⟩ := locsN_mem v hn
    constructor
    · exact_mod_cast Nat.lt_of_lt_of_le Nat.zero_lt_one h1
    · have hlt : (n + 1 : ℕ) < v.length := by omega
      have : ((n + 1 : ℕ) : ℚ) < (v.length : ℚ) := by exact_mod_cast hlt
      push_cast at this
      linarith

/-- Witness for C2 at the fixture signal. -/
theorem fpt_invariants_witness :
    ((find_peaks_troughs [0, 1, 0, -1, 0, 1, 0, -1, 0]).pks.length =
       (find_peaks_troughs [0, 1, 0, -1, 0, 1, 0, -1, 0]).locs.length ∧
     (find_peaks_troughs [0, 1, 0, -1, 0, 1, 0, -1, 0]).wds.length =
       (find_peaks_troughs [0, 1, 0, -1, 0, 1, 0, -1, 0]).locs.length ∧
     (find_peaks_troughs [0, 1, 0, -1, 0, 1, 0, -1, 0]).prms.length =
       (find_peaks_troughs [0, 1, 0, -1, 0, 1, 0, -1, 0]).locs.length) ∧
    (find_peaks_troughs [0, 1, 0, -1, 0, 1, 0, -1, 0]).locs.Pairwise (· < ·) ∧
    ∀ x ∈ (find_peaks_troughs [0, 1, 0, -1, 0, 1, 0, -1, 0]).locs,
      0 < x ∧ x < (([0, 1, 0, -1, 0, 1, 0, -1, 0] : List ℚ).length : ℚ) - 1 :=
  fpt_invariants [0, 1, 0, -1, 0, 1, 0, -1, 0] (by decide)

/-! ## Closed form of the interior product vector -/

lemma dropLast_zipWith_append (f : ℚ → ℚ → ℚ) :
    ∀ (t : List ℚ) (a b : ℚ),
      (List.zipWith f (t ++ [b]) (a :: t)).dropLast = List.zipWith f t (a :: t) := by
  intro t
  induction t with
  | nil => intro a b; simp
  | cons c t' ih =>
    intro a b
    show (f c a :: List.zipWith f (t' ++ [b]) (c :: t')).dropLast = _
    have hne : List.zipWith f (t' ++ [b]) (c :: t') ≠ [] := by
      cases t' <;> simp
    rw [List.dropLast_cons_of_ne_nil hne, ih c b]
    rfl

/-- The two `np.delete` calls cancel the zero padding: the interior product
vector is exactly the elementwise product of the difference series with its
own tail. -/
lemma mlt_eq (v : List ℚ) :
    mlt v = List.zipWith (· * ·) (dff v).tail (dff v) := by
  unfold mlt dffA dff1
  cases hd : dff v with
  | nil => simp
  | cons a t =>
    show ((a * 0 :: List.zipWith (· * ·) (t ++ [0]) (a :: t)).drop 1).dropLast = _
    rw [List.drop_one, List.tail_cons]
    exact dropLast_zipWith_append (· * ·) t a 0

lemma dff_strict_pos (v : List ℚ) (h : v.Chain' (· < ·)) :
    ∀ x ∈ dff v, 0 < x := by
  induction v with
  | nil => intro x hx; simp [dff] at hx
  | cons a t ih =>
    cases t with
    | nil => intro x hx; simp [dff] at hx
    | cons b t' =>
      intro x hx
      rw [List.chain'_cons] at h
      rw [show dff (a :: b :: t') = (b - a) :: dff (b :: t') from rfl] at hx
      rcases List.mem_cons.mp hx with h1 | h1
      · subst h1; linarith [h.1]
      · exact ih h.2 x h1

lemma dff_strict_neg (v : List ℚ) (h : v.Chain' (· > ·)) :
    ∀ x ∈ dff v, x < 0 := by
  induction v with
  | nil => intro x hx; simp [dff] at hx
  | cons a t ih =>
    cases t with
    | nil => intro x hx; simp [dff] at hx
    | cons b t' =>
      intro x hx
      rw [List.chain'_cons] at h
      rw [show dff (a :: b :: t') = (b - a) :: dff (b :: t') from rfl] at hx
      rcases List.mem_cons.mp hx with h1 | h1
      · subst h1; have : b < a := h.1; linarith
      · exact ih h.2 x h1

lemma mem_zipWith_mul {l1 l2 : List ℚ} {y : ℚ}
    (hy : y ∈ List.zipWith (· * ·) l1 l2) :
    ∃ a b, a ∈ l1 ∧ b ∈ l2 ∧ y = a * b := by
  induction l1 generalizing l2 with
  | nil => simp at hy
  | cons a t ih =>
    cases l2 with
    | nil => simp at hy
    | cons b u =>
      rcases List.mem_cons.mp hy with h | h
      · exact ⟨a, b, List.mem_cons_self _ _, List.mem_cons_self _ _, h⟩
      · obtain ⟨x, z, hx, hz, hxz⟩ := ih h
        exact ⟨x, z, List.mem_cons_of_mem _ hx, List.mem_cons_of_mem _ hz, hxz⟩

lemma mlt_pos_of_monotone (v : List ℚ)
    (hmono : v.Chain' (· < ·) ∨ v.Chain' (· > ·)) :
    ∀ y ∈ mlt v, 0 < y := by
  intro y hy
  rw [mlt_eq] at hy
  obtain ⟨a, b, ha, hb, rfl⟩ := mem_zipWith_mul hy
  rcases hmono with h | h
  · have hb' := dff_strict_pos v h b hb
    have ha' := dff_strict_pos v h a (List.mem_of_mem_tail ha)
    positivity
  · have hb' := dff_strict_neg v h b hb
    have ha' := dff_strict_neg v h a (List.mem_of_mem_tail ha)
    exact mul_pos_of_neg_of_neg ha' hb'

lemma locsN_nil_of_monotone (v : List ℚ)
    (hmono : v.Chain' (· < ·) ∨ v.Chain' (· > ·)) : locsN v = [] := by
  unfold locsN
  rw [List.map_eq_nil_iff, List.filter_eq_nil_iff]
  intro k hk
  have hk' := List.mem_range.mp hk
  have hpos := mlt_pos_of_monotone v hmono ((mlt v).getD k 0)
    (by rw [List.getD_eq_getElem (mlt v) 0 hk']; exact List.getElem_mem hk')
  simp only [decide_eq_true_eq]
  intro hle
  linarith

/-- C4 counterexample: the constant signal `[0,0,0]` is reported with one
extremum (at index 1), not with four empty sequences. -/
theorem fpt_constant_cex :
    find_peaks_troughs [0, 0, 0] = ⟨[0], [1], [2], [0]⟩ ∧
    (find_peaks_troughs [0, 0, 0]).locs ≠ [] := by
  constructor
  · with_unfolding_all decide
  · with_unfolding_all decide

/-- C4 (amended): for every strictly monotonic input of length at least 3,
all four returned sequences are empty; a constant signal instead reports
every interior index as an extremum (zero slopes qualify, see the
counterexample). -/
theorem fpt_strict_monotone_empty (v : List ℚ) (h3 : 3 ≤ v.length)
    (hmono : v.Chain' (· < ·) ∨ v.Chain' (· > ·)) :
    find_peaks_troughs v = ⟨[], [], [], []⟩ := by
  have hl := locsN_nil_of_monotone v hmono
  unfold find_peaks_troughs pksL wdsL prmsL
  rw [hl]
  rfl

/-- Witness for the amended C4 at the strictly increasing signal `[0,1,2]`. -/
theorem fpt_strict_monotone_empty_witness :
    find_peaks_troughs [0, 1, 2] = ⟨[], [], [], []⟩ :=
  fpt_strict_monotone_empty [0, 1, 2] (by decide)
    (Or.inl (by norm_num [List.chain'_cons]))

/-! ## Normalization lemmas -/

lemma nrmList_sorted (param : List ℚ) : (nrmList param).Pairwise (· ≥ ·) := by
  unfold nrmList
  rw [List.pairwise_reverse]
  exact List.sorted_insertionSort (· ≤ ·) param

lemma nrmList_perm (param : List ℚ) : List.Perm (nrmList param) param :=
  (List.reverse_perm _).trans (List.perm_insertionSort _ _)

/-- C5 counterexample: on the signal `[0,10,-1,0]` the largest raw parameter
(100) exceeds 5 times the second largest (1), so the series is normalized by
the second largest and its maximum is 100, not 1. -/
theorem normalize_outlier_cex :
    normalizeParam (rawParam (find_peaks_troughs [0, 10, -1, 0])) = some [100, 1] ∧
    (100 : ℚ) ∈ ([100, 1] : List ℚ) ∧ ¬ ((100 : ℚ) ≤ 1) := by
  refine ⟨by with_unfolding_all decide, by with_unfolding_all decide,
    by with_unfolding_all decide⟩

/-- C5 (amended): with at least two extrema and a positive second-largest raw
parameter, the normalized series always attains the value 1 (at the chosen
reference entry); its maximum equals 1 exactly when the largest/second-largest
ratio is at most 5, and otherwise equals that ratio (which exceeds 5). -/
theorem normalize_attains_one (param : List ℚ) (a b : ℚ) (rest : List ℚ)
    (hs : nrmList param = a :: b :: rest) (hb : 0 < b) :
    ∃ p, normalizeParam param = some p ∧ (1 : ℚ) ∈ p ∧
      (a / b ≤ 5 → ∀ x ∈ p, x ≤ 1) ∧
      (5 < a / b → a / b ∈ p ∧ ∀ x ∈ p, x ≤ a / b) := by
  have hsorted := nrmList_sorted param
  rw [hs] at hsorted
  have hperm := nrmList_perm param
  rw [hs] at hperm
  have ha_mem : a ∈ param := hperm.subset (List.mem_cons_self _ _)
  have hb_mem : b ∈ param := hperm.subset
    (List.mem_cons_of_mem _ (List.mem_cons_self _ _))
  have hba : b ≤ a :=
    List.rel_of_pairwise_cons hsorted (List.mem_cons_self _ _)
  have ha : 0 < a := lt_of_lt_of_le hb hba
  have hmax : ∀ x ∈ param, x ≤ a := by
    intro x hx
    have hx' : x ∈ a :: b :: rest := hperm.mem_iff.mpr hx
    rcases List.mem_cons.mp hx' with h | h
    · exact le_of_eq h
    · exact List.rel_of_pairwise_cons hsorted h
  have hnp : normalizeParam param =
      if 5 < a / b then some (param.map (· / b)) else some (param.map (· / a)) := by
    unfold normalizeParam
    rw [hs]
  rw [hnp]
  by_cases h5 : 5 < a / b
  · rw [if_pos h5]
    refine ⟨_, rfl, ?_, ?_, ?_⟩
    · have hbb : b / b = 1 := div_self (ne_of_gt hb)
      exact hbb ▸ List.mem_map_of_mem (· / b) hb_mem
    · exact fun hle => ((not_lt.mpr hle) h5).elim
    · intro _
      refine ⟨List.mem_map_of_mem (· / b) ha_mem, ?_⟩
      intro x hx
      obtain ⟨y, hy, rfl⟩ := List.mem_map.mp hx
      exact (div_le_div_right hb).mpr (hmax y hy)
  · rw [if_neg h5]
    refine ⟨_, rfl, ?_, ?_, ?_⟩
    · have haa : a / a = 1 := div_self (ne_of_gt ha)
      exact haa ▸ List.mem_map_of_mem (· / a) ha_mem
    · intro _ x hx
      obtain ⟨y, hy, rfl⟩ := List.mem_map.mp hx
      have := (div_le_div_right ha).mpr (hmax y hy)
      rwa [div_self (ne_of_gt ha)] at this
    · exact fun h => (h5 h).elim

/-- Witness for the amended C5 on the raw parameters `[1,2,2,1]` of the
fixture signal (sorted descending: `[2,2,1,1]`). -/
theorem normalize_attains_one_witness :
    ∃ p, normalizeParam [1, 2, 2, 1] = some p ∧ (1 : ℚ) ∈ p ∧
      ((2 : ℚ) / 2 ≤ 5 → ∀ x ∈ p, x ≤ 1) ∧
      (5 < (2 : ℚ) / 2 → (2 : ℚ) / 2 ∈ p ∧ ∀ x ∈ p, x ≤ (2 : ℚ) / 2) :=
  normalize_attains_one [1, 2, 2, 1] 2 2 [1, 1]
    (by with_unfolding_all decide) (by norm_num)

/-! ## Index-search lemmas -/

lemma firstIdx?_eq_none_iff (p : ℚ → Bool) (l : List ℚ) :
    firstIdx? p l = none ↔ ∀ x ∈ l, ¬ p x := by
  unfold firstIdx?
  rw [List.head?_eq_none_iff, List.filter_eq_nil_iff]
  constructor
  · intro h x hx hp
    obtain ⟨i, hi, hix⟩ := List.mem_iff_getElem.mp hx
    refine h i (List.mem_range.mpr hi) ?_
    rw [List.getD_eq_getElem l 0 hi, hix]
    exact hp
  · intro h i hi hp
    have hi' := List.mem_range.mp hi
    rw [List.getD_eq_getElem l 0 hi'] at hp
    exact h _ (List.getElem_mem hi') hp

lemma lastIdx?_eq_none_iff (p : ℚ → Bool) (l : List ℚ) :
    lastIdx? p l = none ↔ ∀ x ∈ l, ¬ p x := by
  unfold lastIdx?
  rw [List.getLast?_eq_none_iff, List.filter_eq_nil_iff]
  constructor
  · intro h x hx hp
    obtain ⟨i, hi, hix⟩ := List.mem_iff_getElem.mp hx
    refine h i (List.mem_range.mpr hi) ?_
    rw [List.getD_eq_getElem l 0 hi, hix]
    exact hp
  · intro h i hi hp
    have hi' := List.mem_range.mp hi
    rw [List.getD_eq_getElem l 0 hi'] at hp
    exact h _ (List.getElem_mem hi') hp

/-- C3 counterexample: on `[0,1,-1,0]` the normalized parameters are `[1,1]`
and the estimated threshold is `1`, so no entry exceeds the threshold; the
flexure detector then raises `IndexError` (the `np.where` result is empty)
instead of returning the sentinel `0`. -/
theorem flexure_no_exceed_cex :
    normalizeParam (rawParam (find_peaks_troughs [0, 1, -1, 0])) = some [1, 1] ∧
    find_signal_threshold [1, 1] = 1 ∧
    (∀ x ∈ ([1, 1] : List ℚ), ¬ ((1 : ℚ) < x)) ∧
    get_flexure_arrival [0, 1, -1, 0] = .error .indexError := by
  refine ⟨?_, ?_, ?_, ?_⟩ <;> with_unfolding_all decide

/-- C3 (amended): when no normalized parameter exceeds the threshold, the
search raises `IndexError` (in the flexure detector and in the shared
threshold-crossing search used by both detectors) rather than returning 0;
the sentinel 0 is returned exactly when the first entry exceeding the
threshold sits at position 0 of the param series. -/
theorem arrival_threshold_sentinel :
    (∀ sgnl param, normalizeParam (rawParam (find_peaks_troughs sgnl)) = some param →
      (∀ x ∈ param, ¬ (find_signal_threshold param < x)) →
      get_flexure_arrival sgnl = .error .indexError) ∧
    (∀ param locs : List ℚ, ∀ t : ℚ, (∀ x ∈ param, ¬ (t < x)) →
      scanArrival param locs t = .error .indexError) ∧
    (∀ param locs : List ℚ, ∀ t : ℚ,
      firstIdx? (fun x => decide (t < x)) param = some 0 →
      scanArrival param locs t = .ok 0) := by
  have hscan : ∀ (param locs : List ℚ) (t : ℚ), (∀ x ∈ param, ¬ (t < x)) →
      scanArrival param locs t = .error .indexError := by
    intro param locs t h
    unfold scanArrival
    have hnone : firstIdx? (fun x => decide (t < x)) param = none :=
      (firstIdx?_eq_none_iff _ _).mpr (fun x hx => by simpa using h x hx)
    rw [hnone]
  refine ⟨?_, hscan, ?_⟩
  · intro sgnl param hn h
    unfold get_flexure_arrival
    rw [hn]
    exact hscan param _ _ h
  · intro param locs t h
    unfold scanArrival
    rw [h]
    rfl

/-- Witness for the amended C3: the raising case at `[0,1,-1,0]` and the
sentinel case on a series whose first entry already exceeds the threshold. -/
theorem arrival_threshold_sentinel_witness :
    get_flexure_arrival [0, 1, -1, 0] = .error .indexError ∧
    scanArrival [1, 1] [1, 2] 1 = .error .indexError ∧
    scanArrival [2, 1] [1, 2] 1 = .ok 0 :=
  ⟨arrival_threshold_sentinel.1 [0, 1, -1, 0] [1, 1]
      (by with_unfolding_all decide) (by with_unfolding_all decide),
   arrival_threshold_sentinel.2.1 [1, 1] [1, 2] 1 (by with_unfolding_all decide),
   arrival_threshold_sentinel.2.2 [2, 1] [1, 2] 1 (by with_unfolding_all decide)⟩

/-! ## Degenerate inputs propagate raw errors -/

lemma rawParam_length (v : List ℚ) :
    (rawParam (find_peaks_troughs v)).length = (locsN v).length := by
  simp [rawParam, find_peaks_troughs, pksL, prmsL]

lemma normalizeParam_eq_none (param : List ℚ) (h : param.length < 2) :
    normalizeParam param = none := by
  have hlen : (nrmList param).length = param.length := by
    simp [nrmList, List.length_insertionSort]
  unfold normalizeParam
  cases hnl : nrmList param with
  | nil => rfl
  | cons a t =>
    cases t with
    | nil => rfl
    | cons b t' =>
      exfalso
      rw [hnl] at hlen
      simp at hlen
      omega

/-- C9 counterexample: on the strictly monotonic signal `[0,1,2]` (no
extrema, so the normalization cannot index the second-largest value) both
detectors propagate a raw `IndexError`; no named error kinds exist in the
code. -/
theorem raw_index_error_cex :
    get_flexure_arrival [0, 1, 2] = .error .indexError ∧
    get_extension_arrival [0, 1, 2] 10 (1 / 1000000) = .error .indexError := by
  refine ⟨?_, ?_⟩ <;> with_unfolding_all decide

/-- C9 (amended): whenever the peak finder yields fewer than two extrema,
both detectors propagate the raw `IndexError` from indexing the sorted
parameter vector, rather than raising any structured error kind. -/
theorem few_extrema_raw_error (sgnl : List ℚ)
    (h : (find_peaks_troughs sgnl).pks.length < 2) :
    get_flexure_arrival sgnl = .error .indexError ∧
    ∀ noisemult noisemin : ℚ,
      get_extension_arrival sgnl noisemult noisemin = .error .indexError := by
  have hpks : (find_peaks_troughs sgnl).pks.length = (locsN sgnl).length := by
    simp [find_peaks_troughs, pksL]
  have hlen : (rawParam (find_peaks_troughs sgnl)).length < 2 := by
    rw [rawParam_length]
    omega
  have hn := normalizeParam_eq_none _ hlen
  constructor
  · unfold get_flexure_arrival
    rw [hn]
  · intro nm nmin
    simp only [get_extension_arrival, hn]

/-- Witness for the amended C9 at the monotonic signal `[0,1,2]`. -/
theorem few_extrema_raw_error_witness :
    get_flexure_arrival [0, 1, 2] = .error .indexError ∧
    get_extension_arrival [0, 1, 2] 10 (1 / 1000000) = .error .indexError :=
  ⟨(few_extrema_raw_error [0, 1, 2] (by with_unfolding_all decide)).1,
   (few_extrema_raw_error [0, 1, 2] (by with_unfolding_all decide)).2 10 (1 / 1000000)⟩

/-! ## Threshold-loop behaviour -/

lemma fstLoop_step1 (fuel : ℕ) (v : List ℚ)
    (h0 : noiseMin < pymean (v.take 25)) :
    fstLoop (fuel + 1) v 0 none 0 false 0 =
      if 45 > v.length then pymean (v.take 25)
      else fstLoop fuel v 20 (some (pymean (v.take 25))) 0 true 1 := by
  simp only [fstLoop, List.drop_zero, Nat.zero_add]
  rw [if_pos h0]
  norm_num

lemma fstLoop_step2 (fuel : ℕ) (v : List ℚ) (m0 : ℚ) (hm0 : noiseMin < m0)
    (h1 : noiseMin < pymean ((v.drop 20).take 25)) :
    fstLoop (fuel + 1) v 20 (some m0) 0 true 1 =
      if 65 > v.length then m0 else fstLoop fuel v 40 (some m0) m0 true 2 := by
  have hm0' : m0 ≠ 0 := by
    intro h
    rw [h] at hm0
    norm_num [noiseMin] at hm0
  simp only [fstLoop]
  rw [if_neg hm0']
  rw [if_pos h1]
  norm_num [hm0]

lemma fstLoop_step3 (fuel : ℕ) (v : List ℚ) (m0 : ℚ) (hm0 : noiseMin < m0)
    (h2 : noiseMin < pymean ((v.drop 40).take 25)) :
    fstLoop (fuel + 1) v 40 (some m0) m0 true 2 = m0 := by
  have hm0' : m0 ≠ 0 := by
    intro h
    rw [h] at hm0
    norm_num [noiseMin] at hm0
  simp only [fstLoop]
  rw [if_neg hm0']
  rw [if_pos h2]
  norm_num [hm0]

/-- C6 counterexample: on 25 ones followed by 40 twos the first three window
means are `1`, `9/5` and `2`, all above the noise floor.  On the third
consecutive qualifying window the claim prescribes overwriting with the
previous window's mean `9/5`, but the loop restores the saved working value
and returns the first window's mean `1`. -/
theorem fst_overwrite_cex :
    find_signal_threshold (List.replicate 25 (1 : ℚ) ++ List.replicate 40 2) = 1 ∧
    pymean (((List.replicate 25 (1 : ℚ) ++ List.replicate 40 2).drop 20).take 25)
      = 9 / 5 ∧
    ((9 : ℚ) / 5 ≠ 1) := by
  refine ⟨?_, ?_, ?_⟩ <;> with_unfolding_all decide

/-- C6 (amended): on the second consecutive qualifying window the working
threshold is overwritten with the previous window's mean, and on every later
consecutive qualifying window with the previous iteration's working value, so
that three consecutive qualifying windows return the first window mean of the
streak; the loop stops when the window end passes the series end or the
streak counter exceeds 2. -/
theorem fst_streak_first_mean (v : List ℚ)
    (h0 : noiseMin < pymean (v.take 25))
    (h1 : noiseMin < pymean ((v.drop 20).take 25))
    (h2 : noiseMin < pymean ((v.drop 40).take 25)) :
    find_signal_threshold v = pymean (v.take 25) := by
  unfold find_signal_threshold
  rw [fstLoop_step1 _ v h0]
  by_cases hA : 45 > v.length
  · rw [if_pos hA]
  · rw [if_neg hA]
    have hfa : v.length = (v.length - 1) + 1 := by omega
    rw [hfa, fstLoop_step2 _ v _ h0 h1]
    by_cases hB : 65 > v.length
    · rw [if_pos hB]
    · rw [if_neg hB]
      have hfb : v.length - 1 = (v.length - 2) + 1 := by omega
      rw [hfb, fstLoop_step3 _ v _ h0 h2]

/-- Witness for the amended C6: a constant series of 65 ones, whose three
windows all qualify; the returned threshold is the first window mean. -/
theorem fst_streak_first_mean_witness :
    find_signal_threshold (List.replicate 65 (1 : ℚ)) =
      pymean ((List.replicate 65 (1 : ℚ)).take 25) :=
  fst_streak_first_mean (List.replicate 65 (1 : ℚ))
    (by with_unfolding_all decide) (by with_unfolding_all decide)
    (by with_unfolding_all decide)

/-! ## Segment-mean loop behaviour -/

lemma tstLoop_succ_head (fuel : ℕ) (param : List ℚ) (w : ℕ) (refmax : ℚ)
    (strt : ℕ) :
    ∃ rest, tstLoop (fuel + 1) param w refmax strt =
      (strt, pymean ((param.drop strt).take w)) :: rest := by
  simp only [tstLoop]
  by_cases h : strt + w + 1 + w > param.length ∨
      refmax < pymean ((param.drop strt).take w)
  · rw [if_pos h]
    exact ⟨[], rfl⟩
  · rw [if_neg h]
    exact ⟨_, rfl⟩

/-- C7 counterexample: with segment width 2 on an 8-element series the loop
records segments starting at 0, 3 and 6 — consecutive starts are 3 apart, so
the elements at indices 2 and 5 belong to no recorded segment even though the
loop continues past them. -/
theorem tstLoop_skip_cex :
    tstLoop 10 (List.replicate 8 (0 : ℚ)) 2 1 0 = [(0, 0), (3, 0), (6, 0)] ∧
    (∀ s ∈ [0, 3, 6], ¬ (s ≤ 2 ∧ 2 < s + 2)) := by
  constructor
  · with_unfolding_all decide
  · decide

/-- C7 (amended): the recorded segments all have width `floor(nnlocs/2)` and
consecutive start offsets differ by `floor(nnlocs/2) + 1` (one element of
`param` is skipped between successive segments); every segment but the last
had mean at most `refmax` and left room for the next segment, i.e. the loop
stops exactly when the series is exhausted or a segment mean exceeds
`refmax`. -/
theorem tstLoop_segments_spec (fuel : ℕ) (param : List ℚ) (w : ℕ) (refmax : ℚ)
    (strt : ℕ) :
    (((tstLoop fuel param w refmax strt).map Prod.fst).Chain'
        (fun a b => b = a + (w + 1))) ∧
    (∀ e ∈ tstLoop fuel param w refmax strt,
       e.2 = pymean ((param.drop e.1).take w)) ∧
    (∀ i, i + 1 < (tstLoop fuel param w refmax strt).length →
       ((tstLoop fuel param w refmax strt).getD i (0, 0)).2 ≤ refmax ∧
       ((tstLoop fuel param w refmax strt).getD i (0, 0)).1 + 2 * w + 1
         ≤ param.length) := by
  induction fuel generalizing strt with
  | zero => simp [tstLoop]
  | succ fuel ih =>
    by_cases h : strt + w + 1 + w > param.length ∨
        refmax < pymean ((param.drop strt).take w)
    · have ht : tstLoop (fuel + 1) param w refmax strt =
          [(strt, pymean ((param.drop strt).take w))] := by
        simp only [tstLoop]
        rw [if_pos h]
      rw [ht]
      refine ⟨by simp, ?_, ?_⟩
      · intro e he
        rw [List.mem_singleton] at he
        subst he
        rfl
      · intro i hi
        simp at hi
    · have ht : tstLoop (fuel + 1) param w refmax strt =
          (strt, pymean ((param.drop strt).take w)) ::
            tstLoop fuel param w refmax (strt + w + 1) := by
        simp only [tstLoop]
        rw [if_neg h]
      push_neg at h
      obtain ⟨hlen, hmean⟩ := h
      obtain ⟨chain_ih, mem_ih, idx_ih⟩ := ih (strt + w + 1)
      rw [ht]
      refine ⟨?_, ?_, ?_⟩
      · rw [List.map_cons]
        cases hrest : tstLoop fuel param w refmax (strt + w + 1) with
        | nil => simp
        | cons e rest' =>
          have he1 : e.1 = strt + w + 1 := by
            cases fuel with
            | zero => simp [tstLoop] at hrest
            | succ f =>
              obtain ⟨r, hr⟩ := tstLoop_succ_head f param w refmax (strt + w + 1)
              rw [hr] at hrest
              rw [List.cons.injEq] at hrest
              rw [← hrest.1]
          rw [List.map_cons, List.chain'_cons]
          constructor
          · omega
          · have hch := chain_ih
            rw [hrest, List.map_cons] at hch
            exact hch
      · intro e he
        rcases List.mem_cons.mp he with rfl | he'
        · rfl
        · exact mem_ih e he'
      · intro i hi
        cases i with
        | zero =>
          refine ⟨by simpa using hmean, ?_⟩
          simp only [List.getD_cons_zero]
          omega
        | succ i' =>
          have hi' : i' + 1 < (tstLoop fuel param w refmax (strt + w + 1)).length := by
            simp at hi
            omega
          have := idx_ih i' hi'
          simpa [List.getD_cons_succ] using this

/-- Witness for the amended C7 on a concrete 8-element series. -/
theorem tstLoop_segments_spec_witness :
    ((tstLoop 10 (List.replicate 8 (0 : ℚ)) 2 1 0).map Prod.fst).Chain'
      (fun a b => b = a + (2 + 1)) :=
  (tstLoop_segments_spec 10 (List.replicate 8 (0 : ℚ)) 2 1 0).1

/-! ## Branch A behaviour and Branch B safety -/

/-- C8 counterexample: on the signal below the extension detector reaches
Branch A (last segment mean `2/3` is at most `refmaxthresh = 4/3`) with
`refnoisemean = 2/15` and no recorded segment mean strictly below it; instead
of defaulting to the 2nd segment it raises `IndexError`. -/
theorem branchA_none_below_cex :
    get_extension_arrival [-1, -3, -2, -3, -2, 1, -1, 0, 3, 1, 3, -2, 3, -3]
        10 (1 / 1000000) = .error .indexError ∧
    normalizeParam (rawParam (find_peaks_troughs
        [-1, -3, -2, -3, -2, 1, -1, 0, 3, 1, 3, -2, 3, -3])) =
      some [1/5, 2/15, 1/5, 2/15, 2/15, 2/5, 2/15, 2/5, 2/3, 1] ∧
    tstLoop 12 [1/5, 2/15, 1/5, 2/15, 2/15, 2/5, 2/15, 2/5, 2/3, 1] 1 (4/3) 0 =
      [(0, 1/5), (2, 1/5), (4, 2/15), (6, 2/15), (8, 2/3)] ∧
    (∀ m ∈ ([1/5, 1/5, 2/15, 2/15, 2/3] : List ℚ), ¬ (m < 2/15)) ∧
    ((2 : ℚ) / 3 ≤ 4 / 3) := by
  refine ⟨?_, ?_, ?_, ?_, ?_⟩ <;> with_unfolding_all decide

/-- C8 (amended): in Branch A, when no recorded segment mean is below
`refnoisemean` the detector raises `IndexError`; when the *last* such segment
is the first one (index 0), it defaults to the 2nd segment (index 1),
discards all extrema up to and including that segment's start offset, and
scans the remainder for the first entry exceeding `refnoisemean`. -/
theorem extBranchA_spec (param locs : List ℚ) (ts : List (ℕ × ℚ)) (rn : ℚ) :
    ((∀ m ∈ ts.map Prod.snd, ¬ (m < rn)) →
       extBranchA param locs ts rn = .error .indexError) ∧
    (lastIdx? (fun m => decide (m < rn)) (ts.map Prod.snd) = some 0 →
     2 ≤ ts.length →
       extBranchA param locs ts rn =
         scanArrival (param.drop ((ts.getD 1 (0, 0)).1 + 1))
           (locs.drop ((ts.getD 1 (0, 0)).1 + 1)) rn) := by
  constructor
  · intro h
    unfold extBranchA
    have hnone : lastIdx? (fun m => decide (m < rn)) (ts.map Prod.snd) = none :=
      (lastIdx?_eq_none_iff _ _).mpr (fun x hx => by simpa using h x hx)
    rw [hnone]
  · intro h h2
    unfold extBranchA
    rw [h]
    have h1 : (1 : ℕ) < ts.length := by omega
    simp [h1]

/-- Witness for the amended C8: the raising case and the default-to-2nd case
on concrete segment tables. -/
theorem extBranchA_spec_witness :
    extBranchA [0, 0, 0, 0, 5] [1, 2, 3, 4, 9] [(0, 5), (3, 5)] 1
        = .error .indexError ∧
    extBranchA [0, 0, 0, 0, 5] [1, 2, 3, 4, 9] [(0, 0), (3, 5)] 1 =
      scanArrival (([0, 0, 0, 0, 5] : List ℚ).drop
          ((([((0 : ℕ), (0 : ℚ)), (3, 5)].getD 1 (0, 0)).1 + 1)))
        (([1, 2, 3, 4, 9] : List ℚ).drop
          ((([((0 : ℕ), (0 : ℚ)), (3, 5)].getD 1 (0, 0)).1 + 1))) 1 :=
  ⟨(extBranchA_spec [0, 0, 0, 0, 5] [1, 2, 3, 4, 9] [(0, 5), (3, 5)] 1).1
      (by with_unfolding_all decide),
   (extBranchA_spec [0, 0, 0, 0, 5] [1, 2, 3, 4, 9] [(0, 0), (3, 5)] 1).2
      (by with_unfolding_all decide) (by decide)⟩

/-- C10: every location produced by `find_peaks_troughs` is at least 1, and
consequently in Branch B's final pick the selected location is nonzero
whenever its index is in range, so the zero-check fallback to `locs[-2]` /
`locs[-1]` is not taken there. -/
theorem locs_pos_no_fallback :
    (∀ v : List ℚ, ∀ x ∈ (find_peaks_troughs v).locs, 1 ≤ x) ∧
    (∀ param3 locs3 : List ℚ, ∀ rn : ℚ, ∀ i3 : ℕ,
      (∀ x ∈ locs3, 1 ≤ x) →
      lastIdx? (fun x => decide (x ≤ rn)) param3 = some i3 →
      ∀ h : i3 + 1 < locs3.length,
        branchBPick param3 locs3 rn = .ok (pyint (locs3.get ⟨i3 + 1, h⟩))) := by
  constructor
  · intro v x hx
    have hx' : x ∈ (locsN v).map (fun n : ℕ => (n : ℚ)) := hx
    obtain ⟨n, hn, rfl⟩ := List.mem_map.mp hx'
    have h1 := (locsN_mem v hn).1
    exact_mod_cast h1
  · intro param3 locs3 rn i3 hpos hlast h
    unfold branchBPick
    rw [hlast]
    dsimp only
    rw [dif_pos h]
    have hmem : locs3.get ⟨i3 + 1, h⟩ ∈ locs3 := List.get_mem locs3 _ _
    have h1 : (1 : ℚ) ≤ locs3.get ⟨i3 + 1, h⟩ := hpos _ hmem
    have hne : locs3.get ⟨i3 + 1, h⟩ ≠ 0 := by
      intro h0
      rw [h0] at h1
      norm_num at h1
    rw [if_neg hne]

/-- Witness for C10: positivity on the fixture's locations and a concrete
non-fallback Branch B pick. -/
theorem locs_pos_no_fallback_witness :
    (∀ x ∈ (find_peaks_troughs [0, 1, 0, -1, 0]).locs, (1 : ℚ) ≤ x) ∧
    branchBPick [0, 2] [1, 2] 0 = .ok 2 := by
  constructor
  · exact locs_pos_no_fallback.1 [0, 1, 0, -1, 0]
  · have h : (0 : ℕ) + 1 < ([1, 2] : List ℚ).length := by norm_num
    have hb := locs_pos_no_fallback.2 [0, 2] [1, 2] 0 0
      (by with_unfolding_all decide) (by with_unfolding_all decide) h
    refine hb.trans ?_
    show Except.ok (pyint (2 : ℚ)) = Except.ok 2
    with_unfolding_all decide
